import Mathlib

/-! The ticker store, the refresh cycle and the query handler of tickersAPI.

A shallow embedding of `main.go`.  The program keeps one SQLite table `tickers`
and talks to it through three prepared statements (`INSERT`, `UPDATE ... WHERE
symbol = ?`, `SELECT *`).  The table is modelled as the list of its rows in
rowid order, each statement as a function on that list, and each Go loop as a
recursion over the ticker array that executes one statement per element, every
statement being committed on its own (the program opens no transaction).

`log.Fatalln` ends the process; the outcome of a procedure therefore records
whether it returned or ended the process, together with the table as it stands
on disk at that moment.

The handler is followed down to the bytes of the body: the map it fills, the
JSON text `json.Marshal` makes of it, and what `fmt.Fprintf` writes when that
text is its format string.
-/

namespace TickersAPI

/-- A `float64` quote value.  The program never computes with these values, it
only copies them between the JSON payload, the table and the response, so a
finite double is represented by the rational number it denotes (JSON carries
finite numbers only, and SQLite hands back the number it was given). -/
abbrev Float64 := Rat

/-- The constant `tickersAmount` of `main.go`. -/
def tickersAmount : Nat := 102

/-- The struct `Ticker` of `main.go`. -/
structure Ticker where
  Symbol : String
  Price : Float64
  Volume : Float64
  LastTrade : Float64
deriving DecidableEq, Repr

/-- The zero value of `Ticker`, which is what `var allTickers [tickersAmount]Ticker`
holds in every element before decoding. -/
def Ticker.zero : Ticker := ⟨"", 0, 0, 0⟩

/-- One row of the table `tickers`:
`id INTEGER PRIMARY KEY AUTOINCREMENT, symbol TEXT NOT NULL UNIQUE,
price REAL NOT NULL, volume REAL NOT NULL, last_trade REAL NOT NULL`. -/
structure Row where
  id : Nat
  symbol : String
  price : Float64
  volume : Float64
  last_trade : Float64
deriving DecidableEq, Repr

/-- The database file once the table `tickers` exists: its rows in rowid order
and the `AUTOINCREMENT` counter kept by SQLite. -/
structure DB where
  rows : List Row
  seq : Nat
deriving DecidableEq, Repr

/-- The symbols stored in the table, in row order. -/
def DB.symbols (db : DB) : List String := db.rows.map Row.symbol

/-- How a procedure of the program ends: it returns (`done`), it ends the
process through `log.Fatalln` (`fatal`), or it ends the process through a
run-time panic (`panic`).  Each case carries the table as it then stands. -/
inductive Outcome where
  | done (db : DB)
  | fatal (db : DB)
  | panic (db : DB)
deriving DecidableEq, Repr

/-- The table an outcome leaves on disk. -/
def Outcome.db : Outcome → DB
  | .done db => db
  | .fatal db => db
  | .panic db => db

/-! ## The SQL statements -/

/-- The function `createTable` of `main.go`: `CREATE TABLE IF NOT EXISTS tickers (...)`
run on a database file in which the table is absent (`none`) or already present. -/
def createTable (file : Option DB) : DB :=
  match file with
  | none => { rows := [], seq := 0 }
  | some db => db

/-- One execution of `INSERT INTO tickers (symbol, price, volume, last_trade)
VALUES (?,?,?,?)`.  The `UNIQUE` constraint on `symbol` rejects a symbol that is
already stored; otherwise the row is appended with the next `AUTOINCREMENT` id. -/
def execInsert (db : DB) (symbol : String) (price volume lastTrade : Float64) :
    Except String DB :=
  if db.rows.any (fun r => r.symbol == symbol) then
    .error "UNIQUE constraint failed: tickers.symbol"
  else
    .ok { rows := db.rows ++ [⟨db.seq + 1, symbol, price, volume, lastTrade⟩],
          seq := db.seq + 1 }

/-- What `UPDATE tickers SET price = ?, volume = ?, last_trade = ? WHERE symbol = ?`
does to one row. -/
def updateRow (price volume lastTrade : Float64) (symbol : String) (r : Row) : Row :=
  if r.symbol = symbol then
    { r with price := price, volume := volume, last_trade := lastTrade }
  else r

/-- One execution of the `UPDATE` statement.  A `WHERE` clause that matches no
row is not an error in SQL: the statement then changes nothing. -/
def execUpdate (db : DB) (price volume lastTrade : Float64) (symbol : String) :
    Except String DB :=
  .ok { db with rows := db.rows.map (updateRow price volume lastTrade symbol) }

/-! ## Database part -/

/-- The function `insertTickers` of `main.go`: one `INSERT` per array element, in order;
the first failing statement ends the process, the earlier ones stay committed. -/
def insertTickers (db : DB) : List Ticker → Outcome
  | [] => .done db
  | ticker :: rest =>
    match execInsert db ticker.Symbol ticker.Price ticker.Volume ticker.LastTrade with
    | .error _ => .fatal db
    | .ok db' => insertTickers db' rest

/-- The function `updateTickers` of `main.go`: one `UPDATE` per array element, in order. -/
def updateTickers (db : DB) : List Ticker → Outcome
  | [] => .done db
  | ticker :: rest =>
    match execUpdate db ticker.Price ticker.Volume ticker.LastTrade ticker.Symbol with
    | .error _ => .fatal db
    | .ok db' => updateTickers db' rest

/-! ## Fetching -/

/-- The body of the upstream response as `json.Unmarshal` sees it when the
target is `[tickersAmount]Ticker`: either a JSON array, given by what each of
its elements decodes to (a missing or mistyped key leaves the zero value in its
field), or anything else (invalid JSON, or a JSON value that is not an array). -/
inductive Body where
  | notArray
  | array (elems : List Ticker)
deriving DecidableEq, Repr

/-- The result of `http.Get(sourceURL)`. -/
inductive HttpResult where
  | err
  | resp (body : Body)
deriving DecidableEq, Repr

/-- The call `json.Unmarshal(data, &allTickers)` with `allTickers` a zeroed Go array of
length `tickersAmount`: array elements are decoded into the corresponding
elements, surplus JSON elements are discarded, and the Go elements beyond a
shorter JSON array are set to the zero value.  On any other body the call
reports an error and the array keeps its zero values. -/
def unmarshal : Body → List Ticker
  | .notArray => List.replicate tickersAmount Ticker.zero
  | .array elems =>
    elems.take tickersAmount ++ List.replicate (tickersAmount - elems.length) Ticker.zero

/-- The function `getData` of `main.go`.  Errors are logged and not returned.  When
`http.Get` fails `resp` is nil and `defer resp.Body.Close()` dereferences it:
the function panics (`none`). -/
def getData : HttpResult → Option (List Ticker)
  | .err => none
  | .resp body => some (unmarshal body)

/-- The function `prepareDB` of `main.go`: the database file is removed and created
anew, the table is created, and the first fetch is inserted. -/
def prepareDB (h : HttpResult) : Outcome :=
  let db := createTable none
  match getData h with
  | none => .panic db
  | some tickerArr => insertTickers db tickerArr

/-- One iteration of the loop of `updateDB`: `updateTickers(db, getData())`. -/
def updateDBCycle (db : DB) (h : HttpResult) : Outcome :=
  match getData h with
  | none => .panic db
  | some tickerArr => updateTickers db tickerArr

/-- The function `updateDB` of `main.go`, run for as many iterations as there are upstream
responses in the list. -/
def updateDB (db : DB) : List HttpResult → Outcome
  | [] => .done db
  | h :: hs =>
    match updateDBCycle db h with
    | .done db' => updateDB db' hs
    | o => o

/-! ## Reading -/

/-- The body of the `row.Next()` loop: `row.Scan(&id, &symbol, &price, &volume, &lastTrade)`
followed by `Ticker{symbol, price, volume, lastTrade}`. -/
def scanRow (r : Row) : Ticker := ⟨r.symbol, r.price, r.volume, r.last_trade⟩

/-- The function `selectAll` of `main.go`: every row is scanned into a `Ticker` (the id is
read and dropped); the slice is returned only when it has `tickersAmount`
elements, otherwise the result is the nil slice. -/
def selectAll (db : DB) : List Ticker :=
  let tickerArr := db.rows.map scanRow
  if tickerArr.length = tickersAmount then tickerArr else []

/-! ## Server part -/

/-- The struct `TickerData` local to `generalResponse`. -/
structure TickerData where
  Price : Float64
  Volume : Float64
  LastTrade : Float64
deriving DecidableEq, Repr

/-- A Go `map[string]TickerData`, as a list of entries with pairwise distinct keys. -/
abbrev SymbolMap := List (String × TickerData)

/-- The assignment `m[k] = v` on a Go map: the entry of `k` is overwritten when there is one. -/
def SymbolMap.assign (m : SymbolMap) (k : String) (v : TickerData) : SymbolMap :=
  if m.any (fun e => e.1 == k) then m.map (fun e => if e.1 = k then (k, v) else e)
  else m ++ [(k, v)]

/-- The lookup `m[k]` on a Go map. -/
def SymbolMap.lookup (m : SymbolMap) (k : String) : Option TickerData :=
  (m.find? (fun e => e.1 == k)).map Prod.snd

/-- The loop of `generalResponse` that fills the map `symbols`. -/
def buildSymbols (selectedData : List Ticker) : SymbolMap :=
  selectedData.foldl
    (fun symbols ticker =>
      symbols.assign ticker.Symbol ⟨ticker.Price, ticker.Volume, ticker.LastTrade⟩)
    []

/-! ### The call `json.Marshal(symbols)` -/

/-- The table `hex` of `encoding/json`. -/
def hexDigit (n : Nat) : Char := "0123456789abcdef".data.getD n '0'

/-- What `appendString` of `encoding/json` writes for one character of a string,
with HTML escaping on, as `json.Marshal` has it: the quote and the backslash
get a backslash in front, the control characters, `<`, `>` and `&` are written
as escapes, and so are U+2028 and U+2029 (the short forms for backspace and
form feed are those of Go 1.22 and later).  A symbol is a `String`, that is
valid Unicode text, so the replacement of invalid UTF-8 does not arise. -/
def escapeChar (c : Char) : List Char :=
  if c = Char.ofNat 34 ∨ c = Char.ofNat 92 then [Char.ofNat 92, c]
  else if c = Char.ofNat 8 then [Char.ofNat 92, 'b']
  else if c = Char.ofNat 12 then [Char.ofNat 92, 'f']
  else if c = Char.ofNat 10 then [Char.ofNat 92, 'n']
  else if c = Char.ofNat 13 then [Char.ofNat 92, 'r']
  else if c = Char.ofNat 9 then [Char.ofNat 92, 't']
  else if c.toNat < 32 ∨ c = '<' ∨ c = '>' ∨ c = '&' then
    [Char.ofNat 92, 'u', '0', '0', hexDigit (c.toNat / 16), hexDigit (c.toNat % 16)]
  else if c = Char.ofNat 8232 ∨ c = Char.ofNat 8233 then
    [Char.ofNat 92, 'u', '2', '0', '2', hexDigit (c.toNat % 16)]
  else [c]

/-- The function `appendString` of `encoding/json`: a map key as a JSON string. -/
def appendString (s : String) : List Char :=
  Char.ofNat 34 :: s.data.flatMap escapeChar ++ [Char.ofNat 34]

/-- The JSON object of one `TickerData`, fields in declaration order under their
`json` tags.  The spelling of a `float64` is the one of `strconv`; it is not
modelled and enters as the parameter `formatFloat`. -/
def encodeTickerData (formatFloat : Float64 → String) (d : TickerData) : List Char :=
  "\x7b\"price\":".data ++ (formatFloat d.Price).data
    ++ ",\"volume\":".data ++ (formatFloat d.Volume).data
    ++ ",\"last_trade\":".data ++ (formatFloat d.LastTrade).data ++ "\x7d".data

/-- The members of the JSON object of a map, a comma between two of them. -/
def encodeMembers (formatFloat : Float64 → String) : List (String × TickerData) → List Char
  | [] => []
  | [e] => appendString e.1 ++ ':' :: encodeTickerData formatFloat e.2
  | e :: es =>
    appendString e.1 ++ ':' :: encodeTickerData formatFloat e.2
      ++ ',' :: encodeMembers formatFloat es

/-- The call `json.Marshal(symbols)` for a map: the text of a JSON object whose members
are the map's entries sorted by key (keys compare character by character). -/
def jsonMarshal (formatFloat : Float64 → String) (m : SymbolMap) : String :=
  ⟨"\x7b".data
    ++ encodeMembers formatFloat (m.insertionSort (fun a b => a.1.data ≤ b.1.data))
    ++ "\x7d".data⟩

/-! ### The call `fmt.Fprintf(wrtr, string(resp))`

The handler passes the JSON text as the format string and no operands, so
`doPrintf` of package `fmt` interprets every `%` in it.  The functions below
follow `doPrintf` for an empty operand list; a position `i` in the format is
represented by the rest of the format from `i` on. -/

/-- The state of the printer while one verb is processed: what has been written
for it, the flags `goodArgNum` and `afterIndex`, and the rest of the format. -/
structure Verb where
  buf : List Char
  goodArgNum : Bool
  afterIndex : Bool
  rest : List Char
deriving DecidableEq, Repr

/-- The flag loop of `doPrintf`: the characters `#`, `0`, `+`, `-` and space are read as
flags (with no operand the fast path for simple verbs is never taken). -/
def skipFlags : List Char → List Char
  | [] => []
  | c :: cs =>
    if c = '#' ∨ c = '0' ∨ c = '+' ∨ c = '-' ∨ c = ' ' then skipFlags cs else c :: cs

/-- The loop of `parsenum`, on the segment of the format it is allowed to read: it
reads decimal digits, and gives up and moves to the end of the segment once the
number read so far exceeds `1e6` (`tooLarge`). -/
def parsenumLoop (num : Nat) (isnum : Bool) : List Char → Bool × List Char
  | [] => (isnum, [])
  | c :: cs =>
    if '0' ≤ c ∧ c ≤ '9' then
      if num > 1000000 then (false, [])
      else parsenumLoop (num * 10 + (c.toNat - 48)) true cs
    else (isnum, c :: cs)

/-- The function `parsenum` of `fmt`: whether a number is present, and the rest of the segment. -/
def parsenum (cs : List Char) : Bool × List Char := parsenumLoop 0 false cs

/-- The function `parseArgNumber` of `fmt`, given what follows the opening bracket: whether
the bracket holds a well-formed index, and the rest of the format after the
part that is skipped (the bracket alone when the format is too short or holds
no closing bracket, else everything up to and including the closing bracket). -/
def parseArgNumber (cs : List Char) : Bool × List Char :=
  if cs.length < 2 then (false, cs)
  else
    match cs.dropWhile (fun c => c != ']') with
    | [] => (false, cs)
    | _ :: after =>
      let (isnum, r) := parsenum (cs.takeWhile (fun c => c != ']'))
      (isnum && r.isEmpty, after)

/-- The method `argNumber` of `fmt` with no operands: an opening bracket is an explicit
argument index, and no index is in range, so `goodArgNum` is cleared. -/
def argNumber (v : Verb) : Verb :=
  match v.rest with
  | [] => { v with afterIndex := false }
  | c :: cs =>
    if c = '[' then
      { v with goodArgNum := false, afterIndex := (parseArgNumber cs).1,
               rest := (parseArgNumber cs).2 }
    else { v with afterIndex := false }

/-- The width part of `doPrintf`: a `*` asks for an operand that is not there
(`%!(BADWIDTH)` is written), otherwise a number may be read. -/
def parseWidth (v : Verb) : Verb :=
  match v.rest with
  | [] => v
  | c :: t =>
    if c = '*' then
      { v with buf := v.buf ++ "%!(BADWIDTH)".data, afterIndex := false, rest := t }
    else
      { v with goodArgNum := v.goodArgNum && !(v.afterIndex && (parsenum (c :: t)).1),
               rest := (parsenum (c :: t)).2 }

/-- The value of a precision: either a `*`, which asks for an operand that is not
there (`%!(BADPREC)` is written), or a number. -/
def precisionValue (v : Verb) : Verb :=
  match v.rest with
  | [] => v
  | c :: t =>
    if c = '*' then
      { v with buf := v.buf ++ "%!(BADPREC)".data, afterIndex := false, rest := t }
    else { v with rest := (parsenum (c :: t)).2 }

/-- The precision part of `doPrintf`, entered on a `.`: an argument index may follow,
then the value of the precision. -/
def parsePrecision (v : Verb) : Verb :=
  match v.rest with
  | [] => v
  | c :: t =>
    if c = '.' then
      precisionValue
        (argNumber { v with goodArgNum := v.goodArgNum && !v.afterIndex, rest := t })
    else v

/-- The last look for an argument index, `if !afterIndex { ... argNumber ... }`. -/
def lastArgNumber (v : Verb) : Verb :=
  if v.afterIndex then v else argNumber v

/-- The end of one verb: at the end of the format `%!(NOVERB)` is written; `%%`
writes a percent sign; any other verb finds no operand and writes
`%!v(BADINDEX)` after a bad argument index, else `%!v(MISSING)`.  The result is
what has been written and the rest of the format. -/
def writeVerb (v : Verb) : List Char × List Char :=
  match v.rest with
  | [] => (v.buf ++ "%!(NOVERB)".data, [])
  | verb :: rest =>
    if verb = '%' then (v.buf ++ ['%'], rest)
    else if v.goodArgNum = false then
      (v.buf ++ "%!".data ++ verb :: "(BADINDEX)".data, rest)
    else (v.buf ++ "%!".data ++ verb :: "(MISSING)".data, rest)

/-- One verb of `doPrintf`, given what follows the `%`. -/
def processVerb (cs : List Char) : List Char × List Char :=
  writeVerb (lastArgNumber (parsePrecision (parseWidth (argNumber
    { buf := [], goodArgNum := true, afterIndex := false, rest := skipFlags cs }))))

/-- The loop of `doPrintf` with no operands: text is copied up to the next `%`, which
starts a verb.  Every step consumes at least one character, so a `fuel` of the
length of the format is never used up (`doPrintf_fuel`). -/
def doPrintf : Nat → List Char → List Char
  | 0, _ => []
  | _ + 1, [] => []
  | fuel + 1, c :: cs =>
    if c = '%' then (processVerb cs).1 ++ doPrintf fuel (processVerb cs).2
    else c :: doPrintf fuel cs

/-- The call `fmt.Fprintf(wrtr, format)` without operands: what is written to `wrtr`. -/
def Fprintf (format : String) : String := ⟨doPrintf format.length format.data⟩

/-- What the handler sends: the status line and the bytes of the body. -/
structure Response where
  status : Nat
  body : String
deriving DecidableEq, Repr

/-- The function `generalResponse` of `main.go`: the rows are read, the map `symbols` is
filled, marshalled to JSON, and the JSON text is written through
`fmt.Fprintf` as the format string.  The handler never calls `WriteHeader`, so
the first write sends status 200. -/
def generalResponse (formatFloat : Float64 → String) (db : DB) : Response :=
  let selectedData := selectAll db
  let symbols := buildSymbols selectedData
  let resp := jsonMarshal formatFloat symbols
  { status := 200, body := Fprintf resp }

/-! ## Auxiliary definitions used in the proofs -/

/-- What a whole batch of `UPDATE` statements does to one row. -/
def applyRow (tickerArr : List Ticker) (r : Row) : Row :=
  tickerArr.foldl (fun r t => updateRow t.Price t.Volume t.LastTrade t.Symbol r) r

/-- The rows a run of successful `INSERT` statements appends when the counter stands at `seq`. -/
def rowsFrom (seq : Nat) : List Ticker → List Row
  | [] => []
  | t :: ts => ⟨seq + 1, t.Symbol, t.Price, t.Volume, t.LastTrade⟩ :: rowsFrom (seq + 1) ts

/-- The symbols of a ticker array, in order. -/
def symbolsOf (tickerArr : List Ticker) : List String := tickerArr.map Ticker.Symbol

/-- Running `updateTickers` once per batch of a list of batches. -/
def updateTickersSeq (db : DB) : List (List Ticker) → Outcome
  | [] => .done db
  | tickerArr :: rest =>
    match updateTickers db tickerArr with
    | .done db' => updateTickersSeq db' rest
    | o => o

/-- The map entry the loop of `generalResponse` writes for one ticker. -/
def entryOf (t : Ticker) : String × TickerData :=
  (t.Symbol, ⟨t.Price, t.Volume, t.LastTrade⟩)

/-! ## Sample data -/

/-- A family of pairwise distinct, non-empty symbols. -/
def sampleSymbol (i : Nat) : String := String.mk (List.replicate (i + 1) (Char.ofNat 84))

/-- The ticker of the `i`-th sample symbol with all three values equal to `v`. -/
def sampleTicker (v : Float64) (i : Nat) : Ticker := ⟨sampleSymbol i, v, v, v⟩

/-- The tickers of the sample symbols `k, ..., k + n - 1`, all values `v`. -/
def sampleBatch (v : Float64) (k n : Nat) : List Ticker :=
  (List.range n).map (fun i => sampleTicker v (k + i))

/-- A store of `tickersAmount` rows: the sample symbols `0, ..., 101`, all values `1`. -/
def sampleStore : DB :=
  { rows := (List.range tickersAmount).map (fun i => ⟨i + 1, sampleSymbol i, 1, 1, 1⟩),
    seq := tickersAmount }

/-- A store that holds three rows only. -/
def smallStore : DB :=
  { rows := (List.range 3).map (fun i => ⟨i + 1, sampleSymbol i, 1, 1, 1⟩), seq := 3 }

/-- A spelling of numbers for the examples: an integer by its decimal digits,
which is how Go spells the integral values 1, 2 and 3 of the sample data. -/
def sampleFormat (x : Float64) : String :=
  if x.den = 1 then toString x.num else toString x.num ++ "/" ++ toString x.den

/-- A family of two-letter symbols, `AA`, `AB`, ... -/
def shortSymbol (i : Nat) : String :=
  String.mk [Char.ofNat (65 + i / 26), Char.ofNat (65 + i % 26)]

/-- A first fetch of `tickersAmount` records: the symbol `50%d` with the values 1, 2, 3
and 101 two-letter symbols with all values 1. -/
def percentBatch : List Ticker :=
  ⟨"50%d", 1, 2, 3⟩ :: (List.range 101).map (fun i => ⟨shortSymbol i, 1, 1, 1⟩)

/-- The store the bootstrap leaves from `percentBatch`. -/
def percentStore : DB :=
  { rows := ⟨1, "50%d", 1, 2, 3⟩ ::
      (List.range 101).map (fun i => ⟨i + 2, shortSymbol i, 1, 1, 1⟩),
    seq := 102 }

/-! ## Lemmas on the `UPDATE` loop -/

theorem updateRow_symbol (p v l : Float64) (s : String) (r : Row) :
    (updateRow p v l s r).symbol = r.symbol := by
  unfold updateRow
  split <;> rfl

theorem updateRow_id (p v l : Float64) (s : String) (r : Row) :
    (updateRow p v l s r).id = r.id := by
  unfold updateRow
  split <;> rfl

theorem updateRow_of_ne (p v l : Float64) (s : String) (r : Row) (h : r.symbol ≠ s) :
    updateRow p v l s r = r := by
  simp [updateRow, h]

theorem updateRow_of_eq (p v l : Float64) (s : String) (r : Row) (h : r.symbol = s) :
    updateRow p v l s r = ⟨r.id, r.symbol, p, v, l⟩ := by
  simp [updateRow, h]

theorem applyRow_nil (r : Row) : applyRow [] r = r := rfl

theorem applyRow_cons (t : Ticker) (ts : List Ticker) (r : Row) :
    applyRow (t :: ts) r = applyRow ts (updateRow t.Price t.Volume t.LastTrade t.Symbol r) := rfl

theorem applyRow_symbol (tickerArr : List Ticker) (r : Row) :
    (applyRow tickerArr r).symbol = r.symbol := by
  induction tickerArr generalizing r with
  | nil => rfl
  | cons t ts ih => rw [applyRow_cons, ih, updateRow_symbol]

theorem applyRow_id (tickerArr : List Ticker) (r : Row) :
    (applyRow tickerArr r).id = r.id := by
  induction tickerArr generalizing r with
  | nil => rfl
  | cons t ts ih => rw [applyRow_cons, ih, updateRow_id]

/-- A row whose symbol is named by no entry of the batch is left as it is. -/
theorem applyRow_of_not_mem (tickerArr : List Ticker) (r : Row)
    (h : ∀ t ∈ tickerArr, t.Symbol ≠ r.symbol) : applyRow tickerArr r = r := by
  induction tickerArr generalizing r with
  | nil => rfl
  | cons t ts ih =>
    have ht : r.symbol ≠ t.Symbol := fun e => h t (List.mem_cons_self _ _) e.symm
    rw [applyRow_cons, updateRow_of_ne _ _ _ _ _ ht]
    exact ih r (fun u hu => h u (List.mem_cons_of_mem _ hu))

/-- With pairwise distinct batch symbols, a row named by an entry of the batch
ends with exactly that entry's values. -/
theorem applyRow_of_mem (tickerArr : List Ticker) (r : Row) (t : Ticker)
    (hnd : (symbolsOf tickerArr).Nodup) (ht : t ∈ tickerArr) (hs : t.Symbol = r.symbol) :
    applyRow tickerArr r = ⟨r.id, r.symbol, t.Price, t.Volume, t.LastTrade⟩ := by
  induction tickerArr generalizing r with
  | nil => cases ht
  | cons a as ih =>
    simp only [symbolsOf, List.map_cons, List.nodup_cons] at hnd
    rw [applyRow_cons]
    rcases List.mem_cons.1 ht with rfl | hmem
    · rw [updateRow_of_eq _ _ _ _ _ hs.symm]
      apply applyRow_of_not_mem
      intro u hu hEq
      apply hnd.1
      have : u.Symbol = t.Symbol := by rw [hEq, hs]
      rw [← this]
      exact List.mem_map_of_mem _ hu
    · have h1 := ih (updateRow a.Price a.Volume a.LastTrade a.Symbol r) hnd.2 hmem
        (by rw [updateRow_symbol]; exact hs)
      rw [h1, updateRow_symbol, updateRow_id]

/-- Dropping batch entries that do not name the row does not change what the
batch does to the row. -/
theorem applyRow_filter (p : Ticker → Bool) (tickerArr : List Ticker) (r : Row)
    (h : ∀ t ∈ tickerArr, p t = false → t.Symbol ≠ r.symbol) :
    applyRow (tickerArr.filter p) r = applyRow tickerArr r := by
  induction tickerArr generalizing r with
  | nil => rfl
  | cons a as ih =>
    have hrest : ∀ r' : Row, r'.symbol = r.symbol →
        applyRow (as.filter p) r' = applyRow as r' := by
      intro r' hr'
      apply ih
      intro t ht hp
      rw [hr']
      exact h t (List.mem_cons_of_mem _ ht) hp
    cases hpa : p a with
    | true =>
      rw [List.filter_cons_of_pos (by simpa using hpa), applyRow_cons, applyRow_cons]
      exact hrest _ (updateRow_symbol _ _ _ _ _)
    | false =>
      have hne : r.symbol ≠ a.Symbol := fun e => h a (List.mem_cons_self _ _) hpa e.symm
      rw [List.filter_cons_of_neg (by simp [hpa]), applyRow_cons,
        updateRow_of_ne _ _ _ _ _ hne]
      exact hrest r rfl

/-- The loop of `updateTickers` always returns, and it maps every row through the batch. -/
theorem updateTickers_eq (db : DB) (tickerArr : List Ticker) :
    updateTickers db tickerArr = .done ⟨db.rows.map (applyRow tickerArr), db.seq⟩ := by
  induction tickerArr generalizing db with
  | nil =>
    have : applyRow [] = id := funext applyRow_nil
    simp [updateTickers, this]
  | cons t ts ih =>
    have : applyRow (t :: ts) =
        applyRow ts ∘ updateRow t.Price t.Volume t.LastTrade t.Symbol :=
      funext (applyRow_cons t ts)
    simp [updateTickers, execUpdate, ih, this, List.map_map]

/-- The loop run on a batch passes through the state its first `k` statements leave. -/
theorem updateTickers_take_drop (db : DB) (tickerArr : List Ticker) (k : Nat) :
    updateTickers ⟨db.rows.map (applyRow (tickerArr.take k)), db.seq⟩ (tickerArr.drop k)
      = updateTickers db tickerArr := by
  rw [updateTickers_eq, updateTickers_eq]
  have hcomp : ∀ r, applyRow (tickerArr.drop k) (applyRow (tickerArr.take k) r)
      = applyRow tickerArr r := by
    intro r
    conv_rhs => rw [← List.take_append_drop k tickerArr]
    simp only [applyRow, List.foldl_append]
  simp [List.map_map, Function.comp_def, hcomp]

/-! ## Lemmas on the `INSERT` loop -/

theorem mem_symbols_iff (db : DB) (s : String) :
    s ∈ db.symbols ↔ db.rows.any (fun r => r.symbol == s) = true := by
  simp [DB.symbols]

theorem execInsert_of_mem (db : DB) (s : String) (p v l : Float64) (h : s ∈ db.symbols) :
    execInsert db s p v l = .error "UNIQUE constraint failed: tickers.symbol" := by
  rw [mem_symbols_iff] at h
  simp only [execInsert, h, if_true]

theorem execInsert_of_not_mem (db : DB) (s : String) (p v l : Float64) (h : s ∉ db.symbols) :
    execInsert db s p v l =
      .ok { rows := db.rows ++ [⟨db.seq + 1, s, p, v, l⟩], seq := db.seq + 1 } := by
  rw [mem_symbols_iff] at h
  simp only [execInsert, h]
  rfl

theorem insertTickers_cons_of_mem (db : DB) (t : Ticker) (rest : List Ticker)
    (h : t.Symbol ∈ db.symbols) : insertTickers db (t :: rest) = .fatal db := by
  simp only [insertTickers, execInsert_of_mem db _ _ _ _ h]

theorem insertTickers_cons_of_not_mem (db : DB) (t : Ticker) (rest : List Ticker)
    (h : t.Symbol ∉ db.symbols) :
    insertTickers db (t :: rest) =
      insertTickers
        { rows := db.rows ++ [⟨db.seq + 1, t.Symbol, t.Price, t.Volume, t.LastTrade⟩],
          seq := db.seq + 1 } rest := by
  simp only [insertTickers, execInsert_of_not_mem db _ _ _ _ h]

theorem scanRow_rowsFrom (seq : Nat) (tickerArr : List Ticker) :
    (rowsFrom seq tickerArr).map scanRow = tickerArr := by
  induction tickerArr generalizing seq with
  | nil => rfl
  | cons t ts ih => simp [rowsFrom, scanRow, ih]

theorem symbol_rowsFrom (seq : Nat) (tickerArr : List Ticker) :
    (rowsFrom seq tickerArr).map Row.symbol = symbolsOf tickerArr := by
  induction tickerArr generalizing seq with
  | nil => rfl
  | cons t ts ih => simp [rowsFrom, symbolsOf] at *; exact ih _

/-- Without any symbol collision every `INSERT` succeeds and the rows are appended in order. -/
theorem insertTickers_of_nodup (db : DB) (tickerArr : List Ticker)
    (hfresh : ∀ t ∈ tickerArr, t.Symbol ∉ db.symbols) (hnd : (symbolsOf tickerArr).Nodup) :
    insertTickers db tickerArr =
      .done ⟨db.rows ++ rowsFrom db.seq tickerArr, db.seq + tickerArr.length⟩ := by
  induction tickerArr generalizing db with
  | nil => simp [insertTickers, rowsFrom]
  | cons a as ih =>
    simp only [symbolsOf, List.map_cons, List.nodup_cons] at hnd
    rw [insertTickers_cons_of_not_mem db a as (hfresh a (List.mem_cons_self _ _))]
    rw [ih _ _ hnd.2]
    · simp [rowsFrom, Nat.add_comm, Nat.add_left_comm]
    · intro t ht hmem
      simp only [DB.symbols, List.map_append, List.map_cons, List.map_nil, List.mem_append,
        List.mem_singleton] at hmem
      rcases hmem with hmem | hEq
      · exact hfresh t (List.mem_cons_of_mem _ ht) hmem
      · exact hnd.1 (hEq ▸ List.mem_map_of_mem _ ht)

/-- A symbol collision, with a stored row or inside the array, ends the process. -/
theorem insertTickers_fatal (db : DB) (tickerArr : List Ticker)
    (h : (∃ t ∈ tickerArr, t.Symbol ∈ db.symbols) ∨ ¬ (symbolsOf tickerArr).Nodup) :
    ∃ db', insertTickers db tickerArr = .fatal db' := by
  induction tickerArr generalizing db with
  | nil =>
    rcases h with ⟨t, ht, _⟩ | h
    · cases ht
    · exact absurd List.nodup_nil h
  | cons a as ih =>
    by_cases ha : a.Symbol ∈ db.symbols
    · exact ⟨db, insertTickers_cons_of_mem db a as ha⟩
    · rw [insertTickers_cons_of_not_mem db a as ha]
      apply ih
      rcases h with ⟨t, ht, hmem⟩ | h
      · left
        rcases List.mem_cons.1 ht with rfl | ht
        · exact absurd hmem ha
        · exact ⟨t, ht, by simp [DB.symbols] at hmem ⊢; exact Or.inl hmem⟩
      · simp only [symbolsOf, List.map_cons, List.nodup_cons, not_and_or, not_not] at h
        rcases h with h | h
        · left
          obtain ⟨t, ht, hEq⟩ := List.mem_map.1 h
          exact ⟨t, ht, by simp [DB.symbols, hEq]⟩
        · exact Or.inr h

/-- The rows already stored stay where they are, whatever the `INSERT` loop does. -/
theorem insertTickers_keeps_rows (db : DB) (tickerArr : List Ticker) :
    db.rows <+: (insertTickers db tickerArr).db.rows := by
  induction tickerArr generalizing db with
  | nil => exact ⟨[], List.append_nil _⟩
  | cons a as ih =>
    by_cases ha : a.Symbol ∈ db.symbols
    · rw [insertTickers_cons_of_mem db a as ha]
      exact ⟨[], List.append_nil _⟩
    · rw [insertTickers_cons_of_not_mem db a as ha]
      obtain ⟨tl, htl⟩ :=
        ih { rows := db.rows ++ [⟨db.seq + 1, a.Symbol, a.Price, a.Volume, a.LastTrade⟩],
             seq := db.seq + 1 }
      exact ⟨⟨db.seq + 1, a.Symbol, a.Price, a.Volume, a.LastTrade⟩ :: tl,
        by rw [← htl]; simp⟩

/-! ## Lemmas on the sample data -/

theorem sampleSymbol_injective : Function.Injective sampleSymbol := by
  intro i j h
  have hlen := congrArg String.length h
  simpa [sampleSymbol, String.length] using hlen

theorem sampleSymbol_ne_empty (i : Nat) : sampleSymbol i ≠ "" := by
  intro h
  have hlen := congrArg String.length h
  simp [sampleSymbol, String.length] at hlen

theorem symbolsOf_sampleBatch (v : Float64) (k n : Nat) :
    symbolsOf (sampleBatch v k n) = (List.range n).map (fun i => sampleSymbol (k + i)) := by
  simp [symbolsOf, sampleBatch, sampleTicker, List.map_map, Function.comp_def]

theorem nodup_sampleBatch (v : Float64) (k n : Nat) : (symbolsOf (sampleBatch v k n)).Nodup := by
  rw [symbolsOf_sampleBatch]
  apply (List.nodup_range n).map
  intro i j h
  exact Nat.add_left_cancel (sampleSymbol_injective h)

theorem length_sampleBatch (v : Float64) (k n : Nat) : (sampleBatch v k n).length = n := by
  simp [sampleBatch]

theorem symbols_sampleStore :
    sampleStore.symbols = (List.range tickersAmount).map (fun i => sampleSymbol (0 + i)) := by
  simp [DB.symbols, sampleStore, List.map_map, Function.comp_def]

theorem nodup_sampleStore : sampleStore.symbols.Nodup := by
  rw [symbols_sampleStore, ← symbolsOf_sampleBatch 0]
  exact nodup_sampleBatch 0 0 tickersAmount

theorem length_sampleStore : sampleStore.rows.length = tickersAmount := by
  simp [sampleStore]

theorem mem_sampleStore_symbols (s : String) :
    s ∈ sampleStore.symbols ↔ ∃ i, i < tickersAmount ∧ sampleSymbol i = s := by
  simp [symbols_sampleStore]

/-! ## Lemmas on reading -/

theorem selectAll_of_length (db : DB) (h : db.rows.length = tickersAmount) :
    selectAll db = db.rows.map scanRow := by
  simp [selectAll, h]

theorem selectAll_of_length_ne (db : DB) (h : db.rows.length ≠ tickersAmount) :
    selectAll db = [] := by
  simp [selectAll, h]

theorem symbolsOf_map_scanRow (rows : List Row) :
    symbolsOf (rows.map scanRow) = rows.map Row.symbol := by
  simp [symbolsOf, scanRow, List.map_map, Function.comp_def]

theorem map_symbol_applyRow (tickerArr : List Ticker) (rows : List Row) :
    (rows.map (applyRow tickerArr)).map Row.symbol = rows.map Row.symbol := by
  simp [List.map_map, Function.comp_def, applyRow_symbol]

theorem map_id_applyRow (tickerArr : List Ticker) (rows : List Row) :
    (rows.map (applyRow tickerArr)).map Row.id = rows.map Row.id := by
  simp [List.map_map, Function.comp_def, applyRow_id]

/-- A sequence of `updateTickers` calls always returns and keeps ids and symbols in place. -/
theorem updateTickersSeq_shape (db : DB) (batches : List (List Ticker)) :
    ∃ db', updateTickersSeq db batches = .done db' ∧
      db'.rows.map Row.id = db.rows.map Row.id ∧ db'.symbols = db.symbols := by
  induction batches generalizing db with
  | nil => exact ⟨db, rfl, rfl, rfl⟩
  | cons b bs ih =>
    obtain ⟨db', h1, h2, h3⟩ := ih ⟨db.rows.map (applyRow b), db.seq⟩
    refine ⟨db', ?_, ?_, ?_⟩
    · simp only [updateTickersSeq, updateTickers_eq, h1]
    · rw [h2, map_id_applyRow]
    · rw [h3]
      exact map_symbol_applyRow b db.rows

/-- On the empty store a collision-free array is inserted whole, ids counting from 1. -/
theorem insertTickers_createTable (tickerArr : List Ticker)
    (hnd : (symbolsOf tickerArr).Nodup) :
    insertTickers (createTable none) tickerArr =
      .done ⟨rowsFrom 0 tickerArr, tickerArr.length⟩ := by
  rw [insertTickers_of_nodup (createTable none) tickerArr ?_ hnd]
  · simp [createTable]
  · intro t _ hmem
    simp [createTable, DB.symbols] at hmem

/-- Reading back the rows of an inserted array of `tickersAmount` records gives the array. -/
theorem selectAll_rowsFrom (tickerArr : List Ticker) (seq : Nat)
    (hlen : tickerArr.length = tickersAmount) :
    selectAll ⟨rowsFrom 0 tickerArr, seq⟩ = tickerArr := by
  rw [selectAll_of_length]
  · exact scanRow_rowsFrom 0 tickerArr
  · show (rowsFrom 0 tickerArr).length = tickersAmount
    rw [← List.length_map (rowsFrom 0 tickerArr) scanRow, scanRow_rowsFrom, hlen]

/-! ## Lemmas on the handler -/

theorem assign_of_not_mem (m : SymbolMap) (k : String) (v : TickerData)
    (h : k ∉ m.map Prod.fst) : SymbolMap.assign m k v = m ++ [(k, v)] := by
  have hany : m.any (fun e => e.1 == k) = false := by
    rw [Bool.eq_false_iff]
    intro hc
    apply h
    obtain ⟨e, he, hk⟩ := List.any_eq_true.1 hc
    exact List.mem_map.2 ⟨e, he, by simpa using hk⟩
  simp [SymbolMap.assign, hany]

theorem foldl_assign_of_nodup (ts : List Ticker) (m : SymbolMap)
    (hnd : (m.map Prod.fst ++ symbolsOf ts).Nodup) :
    ts.foldl (fun symbols ticker =>
        SymbolMap.assign symbols ticker.Symbol ⟨ticker.Price, ticker.Volume, ticker.LastTrade⟩) m
      = m ++ ts.map entryOf := by
  induction ts generalizing m with
  | nil => simp
  | cons t ts ih =>
    have hfresh : t.Symbol ∉ m.map Prod.fst := by
      intro hmem
      have := (List.nodup_append.1 hnd).2.2
      exact this hmem (by simp [symbolsOf]) 
    rw [List.foldl_cons, assign_of_not_mem m _ _ hfresh, ih]
    · simp [entryOf]
    · simpa [symbolsOf, List.append_assoc] using hnd

theorem buildSymbols_of_nodup (ts : List Ticker) (hnd : (symbolsOf ts).Nodup) :
    buildSymbols ts = ts.map entryOf := by
  have := foldl_assign_of_nodup ts [] (by simpa using hnd)
  simpa [buildSymbols] using this

theorem lookup_of_mem (m : SymbolMap) (k : String) (v : TickerData)
    (hnd : (m.map Prod.fst).Nodup) (hmem : (k, v) ∈ m) : SymbolMap.lookup m k = some v := by
  induction m with
  | nil => cases hmem
  | cons e es ih =>
    simp only [List.map_cons, List.nodup_cons] at hnd
    rcases List.mem_cons.1 hmem with rfl | hmem
    · simp [SymbolMap.lookup]
    · have hne : e.1 ≠ k := by
        intro hEq
        exact hnd.1 (hEq ▸ List.mem_map_of_mem Prod.fst hmem)
      have := ih hnd.2 hmem
      simp [SymbolMap.lookup, List.find?_cons, hne] at this ⊢
      exact this

theorem keys_map_entryOf (ts : List Ticker) : (ts.map entryOf).map Prod.fst = symbolsOf ts := by
  simp [symbolsOf, entryOf, List.map_map, Function.comp_def]

/-! ## Lemmas on fetching -/

theorem length_unmarshal (body : Body) : (unmarshal body).length = tickersAmount := by
  cases body with
  | notArray => simp [unmarshal]
  | array elems =>
    simp only [unmarshal, List.length_append, List.length_take, List.length_replicate]
    omega

theorem symbolsOf_append (xs ys : List Ticker) :
    symbolsOf (xs ++ ys) = symbolsOf xs ++ symbolsOf ys := by
  simp [symbolsOf]

theorem symbolsOf_replicate_zero (n : Nat) :
    symbolsOf (List.replicate n Ticker.zero) = List.replicate n "" := by
  simp [symbolsOf, Ticker.zero]

/-- An array padded with two or more zero values repeats the empty symbol. -/
theorem not_nodup_padded (xs : List Ticker) (n : Nat) (hn : 2 ≤ n) :
    ¬ (symbolsOf (xs ++ List.replicate n Ticker.zero)).Nodup := by
  intro hnd
  rw [symbolsOf_append, symbolsOf_replicate_zero] at hnd
  have := (List.nodup_append.1 hnd).2.1
  rw [List.nodup_replicate] at this
  omega

/-! ## Lemmas on `fmt.Fprintf` -/

theorem skipFlags_length (cs : List Char) : (skipFlags cs).length ≤ cs.length := by
  induction cs with
  | nil => simp [skipFlags]
  | cons c cs ih =>
    unfold skipFlags
    split
    · exact Nat.le_succ_of_le ih
    · exact Nat.le_refl _

theorem parsenumLoop_length (num : Nat) (isnum : Bool) (cs : List Char) :
    (parsenumLoop num isnum cs).2.length ≤ cs.length := by
  induction cs generalizing num isnum with
  | nil => simp [parsenumLoop]
  | cons c cs ih =>
    unfold parsenumLoop
    split
    · split
      · simp
      · exact Nat.le_succ_of_le (ih _ _)
    · exact Nat.le_refl _

theorem parseArgNumber_length (cs : List Char) :
    (parseArgNumber cs).2.length ≤ cs.length := by
  unfold parseArgNumber
  split
  · exact Nat.le_refl _
  · have hsub := (List.dropWhile_sublist (fun c => c != ']') (l := cs)).length_le
    split
    · exact Nat.le_refl _
    · rename_i x after heq
      rw [heq] at hsub
      simp only [List.length_cons] at hsub
      show after.length ≤ cs.length
      omega

theorem argNumber_length (v : Verb) : (argNumber v).rest.length ≤ v.rest.length := by
  unfold argNumber
  split
  · rename_i h
    simp [h]
  · rename_i c cs h
    rw [h]
    split
    · exact Nat.le_succ_of_le (parseArgNumber_length cs)
    · simp [h]

theorem parseWidth_length (v : Verb) : (parseWidth v).rest.length ≤ v.rest.length := by
  unfold parseWidth
  split
  · exact Nat.le_refl _
  · rename_i c t h
    rw [h]
    split
    · simp
    · exact parsenumLoop_length 0 false (c :: t)

theorem precisionValue_length (v : Verb) :
    (precisionValue v).rest.length ≤ v.rest.length := by
  unfold precisionValue
  split
  · exact Nat.le_refl _
  · rename_i c t h
    rw [h]
    split
    · simp
    · exact parsenumLoop_length 0 false (c :: t)

theorem parsePrecision_length (v : Verb) :
    (parsePrecision v).rest.length ≤ v.rest.length := by
  unfold parsePrecision
  split
  · exact Nat.le_refl _
  · rename_i c t h
    rw [h]
    split
    · refine Nat.le_trans (precisionValue_length _) ?_
      refine Nat.le_trans (argNumber_length _) ?_
      simp
    · rw [h]

theorem lastArgNumber_length (v : Verb) :
    (lastArgNumber v).rest.length ≤ v.rest.length := by
  unfold lastArgNumber
  split
  · exact Nat.le_refl _
  · exact argNumber_length v

theorem writeVerb_length (v : Verb) : (writeVerb v).2.length ≤ v.rest.length := by
  unfold writeVerb
  split
  · simp
  · rename_i verb rest h
    rw [h]
    split
    · simp
    · split <;> simp

/-- Processing a verb never moves backwards in the format. -/
theorem processVerb_length (cs : List Char) : (processVerb cs).2.length ≤ cs.length := by
  unfold processVerb
  refine Nat.le_trans (writeVerb_length _) ?_
  refine Nat.le_trans (lastArgNumber_length _) ?_
  refine Nat.le_trans (parsePrecision_length _) ?_
  refine Nat.le_trans (parseWidth_length _) ?_
  refine Nat.le_trans (argNumber_length _) ?_
  exact skipFlags_length cs

theorem doPrintf_nil (fuel : Nat) : doPrintf fuel [] = [] := by
  cases fuel <;> rfl

theorem doPrintf_fuel_eq (n : Nat) :
    ∀ (f1 f2 : Nat) (cs : List Char), cs.length ≤ n → n ≤ f1 → n ≤ f2 →
      doPrintf f1 cs = doPrintf f2 cs := by
  induction n with
  | zero =>
    intro f1 f2 cs hcs _ _
    have : cs = [] := List.length_eq_zero.1 (Nat.le_zero.1 hcs)
    rw [this, doPrintf_nil, doPrintf_nil]
  | succ n ih =>
    intro f1 f2 cs hcs h1 h2
    cases cs with
    | nil => rw [doPrintf_nil, doPrintf_nil]
    | cons c t =>
      obtain ⟨g1, rfl⟩ : ∃ g, f1 = g + 1 := ⟨f1 - 1, by omega⟩
      obtain ⟨g2, rfl⟩ : ∃ g, f2 = g + 1 := ⟨f2 - 1, by omega⟩
      have ht : t.length ≤ n := by simpa using hcs
      simp only [doPrintf]
      split
      · rw [ih g1 g2 _ (Nat.le_trans (processVerb_length t) ht) (by omega) (by omega)]
      · rw [ih g1 g2 t ht (by omega) (by omega)]

/-- The fuel handed to `doPrintf` by `Fprintf` is enough: any larger amount gives the same output. -/
theorem doPrintf_fuel (fuel : Nat) (cs : List Char) (h : cs.length ≤ fuel) :
    doPrintf fuel cs = doPrintf cs.length cs :=
  doPrintf_fuel_eq cs.length fuel cs.length cs (Nat.le_refl _) h (Nat.le_refl _)

/-- A format without any percent sign is written as it is. -/
theorem doPrintf_of_no_percent (cs : List Char) (fuel : Nat)
    (hp : '%' ∉ cs) (hf : cs.length ≤ fuel) : doPrintf fuel cs = cs := by
  induction cs generalizing fuel with
  | nil => exact doPrintf_nil fuel
  | cons c t ih =>
    obtain ⟨g, rfl⟩ : ∃ g, fuel = g + 1 := ⟨fuel - 1, by simp at hf; omega⟩
    have hc : c ≠ '%' := fun e => hp (e ▸ List.mem_cons_self _ _)
    simp only [doPrintf, hc, if_false]
    rw [ih g (fun hm => hp (List.mem_cons_of_mem _ hm)) (by simpa using hf)]

theorem Fprintf_of_no_percent (format : String) (hp : '%' ∉ format.data) :
    Fprintf format = format := by
  unfold Fprintf
  rw [doPrintf_of_no_percent format.data format.length hp (Nat.le_refl _)]


theorem doPrintf_append (xs ys : List Char) (fuel : Nat) (hp : '%' ∉ xs)
    (hf : (xs ++ ys).length ≤ fuel) :
    doPrintf fuel (xs ++ ys) = xs ++ doPrintf ys.length ys := by
  induction xs generalizing fuel with
  | nil => exact doPrintf_fuel fuel ys (by simpa using hf)
  | cons c t ih =>
    obtain ⟨g, rfl⟩ : ∃ g, fuel = g + 1 := ⟨fuel - 1, by simp at hf; omega⟩
    have hc : c ≠ '%' := fun e => hp (e ▸ List.mem_cons_self _ _)
    have hstep : doPrintf (g + 1) (c :: (t ++ ys)) = c :: doPrintf g (t ++ ys) := by
      simp only [doPrintf, hc, if_false]
    rw [List.cons_append, hstep,
      ih g (fun hm => hp (List.mem_cons_of_mem _ hm)) (by simpa using hf)]
    rfl

theorem processVerb_d (cs : List Char) :
    processVerb ('d' :: cs) = ("%!d(MISSING)".data, cs) := by
  have h0 : skipFlags ('d' :: cs) = 'd' :: cs := by
    unfold skipFlags
    rw [if_neg (by decide)]
  have hnum : parsenum ('d' :: cs) = (false, 'd' :: cs) := by
    unfold parsenum parsenumLoop
    rw [if_neg (by decide)]
  have h1 : argNumber ⟨[], true, false, 'd' :: cs⟩ = ⟨[], true, false, 'd' :: cs⟩ := by
    unfold argNumber
    simp only []
    rw [if_neg (by decide)]
  have h2 : parseWidth ⟨[], true, false, 'd' :: cs⟩ = ⟨[], true, false, 'd' :: cs⟩ := by
    unfold parseWidth
    simp only [hnum]
    rw [if_neg (by decide)]
    rfl
  have h3 : parsePrecision ⟨[], true, false, 'd' :: cs⟩ = ⟨[], true, false, 'd' :: cs⟩ := by
    unfold parsePrecision
    simp only []
    rw [if_neg (by decide)]
  have h4 : lastArgNumber ⟨[], true, false, 'd' :: cs⟩ = ⟨[], true, false, 'd' :: cs⟩ := by
    unfold lastArgNumber
    simp only [h1]
    rfl
  have h5 : writeVerb ⟨[], true, false, 'd' :: cs⟩ = ("%!d(MISSING)".data, cs) := by
    unfold writeVerb
    simp only []
    rw [if_neg (by decide), if_neg (by decide)]
    rfl
  unfold processVerb
  rw [h0, h1, h2, h3, h4, h5]

theorem doPrintf_percent_d (cs : List Char) (fuel : Nat) (hf : cs.length + 2 ≤ fuel) :
    doPrintf fuel ('%' :: 'd' :: cs) = "%!d(MISSING)".data ++ doPrintf cs.length cs := by
  obtain ⟨g, rfl⟩ : ∃ g, fuel = g + 1 := ⟨fuel - 1, by omega⟩
  simp only [doPrintf, if_true, processVerb_d]
  rw [doPrintf_fuel g cs (by omega)]

theorem encodeMembers_cons (formatFloat : Float64 → String) (e : String × TickerData)
    (es : List (String × TickerData)) (h : es ≠ []) :
    encodeMembers formatFloat (e :: es) =
      appendString e.1 ++ ':' :: encodeTickerData formatFloat e.2
        ++ ',' :: encodeMembers formatFloat es := by
  cases es with
  | nil => exact absurd rfl h
  | cons e1 es1 => rfl

set_option maxRecDepth 100000 in
theorem nodup_percentBatch : (symbolsOf percentBatch).Nodup := by decide


/-- A `%d` in the format, with no percent sign before it, is written as `%!d(MISSING)`. -/
theorem Fprintf_percent_d (pre post : List Char) (hp : '%' ∉ pre) :
    (Fprintf ⟨pre ++ '%' :: 'd' :: post⟩).data =
      pre ++ ("%!d(MISSING)".data ++ doPrintf post.length post) := by
  unfold Fprintf
  show doPrintf (pre ++ '%' :: 'd' :: post).length (pre ++ '%' :: 'd' :: post) = _
  rw [doPrintf_append pre _ _ hp (Nat.le_refl _)]
  rw [doPrintf_percent_d post _ (by simp)]

theorem length_percentBatch : percentBatch.length = tickersAmount := by
  simp [percentBatch, tickersAmount]

set_option maxRecDepth 100000 in
theorem rows_percentStore : rowsFrom 0 percentBatch = percentStore.rows := by decide

theorem prepareDB_percentBatch :
    prepareDB (.resp (.array percentBatch)) = .done percentStore := by
  have hun : unmarshal (.array percentBatch) = percentBatch := by
    have htake : percentBatch.take tickersAmount = percentBatch :=
      List.take_of_length_le (by rw [length_percentBatch])
    simp only [unmarshal, htake, length_percentBatch, Nat.sub_self, List.replicate_zero,
      List.append_nil]
  simp only [prepareDB, getData, hun]
  rw [insertTickers_createTable _ nodup_percentBatch, rows_percentStore, length_percentBatch]
  rfl

theorem selectAll_percentStore : selectAll percentStore = percentBatch := by
  have h := selectAll_rowsFrom percentBatch 102 length_percentBatch
  rw [rows_percentStore] at h
  exact h

/-- The entries of the map that come after the one of `50%d`. -/
theorem buildSymbols_percentBatch :
    buildSymbols percentBatch =
      ("50%d", ⟨1, 2, 3⟩) ::
        (List.range 101).map (fun i => (shortSymbol i, (⟨1, 1, 1⟩ : TickerData))) := by
  rw [buildSymbols_of_nodup _ nodup_percentBatch]
  simp [percentBatch, entryOf, List.map_map, Function.comp_def]

set_option maxRecDepth 100000 in
theorem percent_key_first :
    ∀ b ∈ (List.range 101).map (fun i => (shortSymbol i, (⟨1, 1, 1⟩ : TickerData))),
      ("50%d", (⟨1, 2, 3⟩ : TickerData)).1.data ≤ b.1.data := by
  decide

/-- The JSON text for the sample store begins with the member of `50%d`. -/
theorem jsonMarshal_percentStore :
    ∃ rest : List Char,
      (jsonMarshal sampleFormat (buildSymbols (selectAll percentStore))).data =
        "\x7b\"50".data ++ '%' :: 'd' ::
          ("\":\x7b\"price\":1,\"volume\":2,\"last_trade\":3\x7d,".data ++ rest) := by
  rw [selectAll_percentStore, buildSymbols_percentBatch]
  unfold jsonMarshal
  rw [List.insertionSort_cons _ percent_key_first]
  rw [encodeMembers_cons _ _ _ (by
    intro h
    have hl := congrArg List.length h
    rw [List.length_insertionSort, List.length_map, List.length_range] at hl
    exact absurd hl (by decide))]
  exact ⟨_, rfl⟩

/-- The body of the sample store begins with the garbled key. -/
theorem body_percentStore :
    ∃ rest : List Char,
      (generalResponse sampleFormat percentStore).body.data =
        "\x7b\"50%!d(MISSING)\":\x7b\"price\":1,\"volume\":2,\"last_trade\":3\x7d,".data
          ++ rest := by
  obtain ⟨rest, hrest⟩ := jsonMarshal_percentStore
  have htext : jsonMarshal sampleFormat (buildSymbols (selectAll percentStore)) =
      ⟨"\x7b\"50".data ++ '%' :: 'd' ::
        ("\":\x7b\"price\":1,\"volume\":2,\"last_trade\":3\x7d,".data ++ rest)⟩ := by
    rw [← hrest]
  have hbody : (generalResponse sampleFormat percentStore).body =
      Fprintf (jsonMarshal sampleFormat (buildSymbols (selectAll percentStore))) := rfl
  refine ⟨doPrintf rest.length rest, ?_⟩
  rw [hbody, htext, Fprintf_percent_d _ _ (by decide),
    doPrintf_append _ rest _ (by decide) (Nat.le_refl _)]
  rfl

/-- The map that `generalResponse` builds from a snapshot with unique symbols: its
keys are the snapshot's symbols, in order, and each key maps to the price,
volume and last trade of its record. -/
theorem buildSymbols_selectAll (db : DB) (hnd : (symbolsOf (selectAll db)).Nodup) :
    (buildSymbols (selectAll db)).map Prod.fst = symbolsOf (selectAll db) ∧
    ∀ t ∈ selectAll db,
      SymbolMap.lookup (buildSymbols (selectAll db)) t.Symbol
        = some ⟨t.Price, t.Volume, t.LastTrade⟩ := by
  rw [buildSymbols_of_nodup _ hnd]
  refine ⟨keys_map_entryOf _, ?_⟩
  intro t ht
  apply lookup_of_mem
  · rw [keys_map_entryOf]
    exact hnd
  · exact List.mem_map_of_mem entryOf ht

/-- When the JSON text holds no percent sign, the body sent is the JSON text. -/
theorem generalResponse_body_of_no_percent (formatFloat : Float64 → String) (db : DB)
    (hp : '%' ∉ (jsonMarshal formatFloat (buildSymbols (selectAll db))).data) :
    (generalResponse formatFloat db).body
      = jsonMarshal formatFloat (buildSymbols (selectAll db)) :=
  Fprintf_of_no_percent _ hp

/-- The `INSERT` loop up to its first collision: the records before it are appended,
in order, and the process ends there. -/
theorem insertTickers_first_collision (db : DB) (tickerArr : List Ticker)
    (hcol : ∃ t ∈ tickerArr, t.Symbol ∈ db.symbols) :
    ∃ pre t post, tickerArr = pre ++ t :: post ∧
      (∀ u ∈ pre, u.Symbol ∉ db.symbols) ∧ (symbolsOf pre).Nodup ∧
      (t.Symbol ∈ db.symbols ∨ t.Symbol ∈ symbolsOf pre) ∧
      insertTickers db tickerArr =
        .fatal ⟨db.rows ++ rowsFrom db.seq pre, db.seq + pre.length⟩ := by
  induction tickerArr generalizing db with
  | nil =>
    obtain ⟨t, ht, _⟩ := hcol
    cases ht
  | cons a as ih =>
    by_cases ha : a.Symbol ∈ db.symbols
    · refine ⟨[], a, as, rfl, ?_, List.nodup_nil, Or.inl ha, ?_⟩
      · intro u hu
        cases hu
      · rw [insertTickers_cons_of_mem db a as ha]
        simp [rowsFrom]
    · have hcol1 : ∃ t ∈ as, t.Symbol ∈
          (DB.mk (db.rows ++ [⟨db.seq + 1, a.Symbol, a.Price, a.Volume, a.LastTrade⟩])
            (db.seq + 1)).symbols := by
        obtain ⟨t, ht, hmem⟩ := hcol
        rcases List.mem_cons.1 ht with rfl | ht
        · exact absurd hmem ha
        · exact ⟨t, ht, by simp [DB.symbols] at hmem ⊢; exact Or.inl hmem⟩
      obtain ⟨pre, t, post, hsplit, hfresh, hnd, hwhich, hrun⟩ := ih _ hcol1
      have hsym : ∀ x : String, x ∈
          (DB.mk (db.rows ++ [⟨db.seq + 1, a.Symbol, a.Price, a.Volume, a.LastTrade⟩])
            (db.seq + 1)).symbols ↔ x ∈ db.symbols ∨ x = a.Symbol := by
        intro x
        simp [DB.symbols]
      refine ⟨a :: pre, t, post, by rw [hsplit]; rfl, ?_, ?_, ?_, ?_⟩
      · intro u hu
        rcases List.mem_cons.1 hu with rfl | hu
        · exact ha
        · exact fun hm => hfresh u hu ((hsym _).2 (Or.inl hm))
      · simp only [symbolsOf, List.map_cons, List.nodup_cons]
        refine ⟨?_, hnd⟩
        intro hm
        obtain ⟨u, hu, hEq⟩ := List.mem_map.1 hm
        exact hfresh u hu ((hsym _).2 (Or.inr hEq))
      · rcases hwhich with h | h
        · rcases (hsym _).1 h with h | h
          · exact Or.inl h
          · exact Or.inr (by simp [symbolsOf, h])
        · exact Or.inr (by
            simp only [symbolsOf, List.map_cons, List.mem_cons]
            exact Or.inr h)
      · rw [insertTickers_cons_of_not_mem db a as ha, hrun]
        simp [rowsFrom, Nat.add_comm, Nat.add_left_comm]

/-! ## The claims -/

/-- C4: for every collection of exactly `tickersAmount` = 102 records with
pairwise distinct symbols, `insertTickers` on the freshly initialised empty
store returns (it does not end the process), and `selectAll` afterwards returns
exactly those records, in insertion order. -/
theorem insertTickers_then_selectAll (tickerArr : List Ticker)
    (hlen : tickerArr.length = tickersAmount) (hnd : (symbolsOf tickerArr).Nodup) :
    ∃ db, insertTickers (createTable none) tickerArr = .done db ∧
      selectAll db = tickerArr :=
  ⟨_, insertTickers_createTable tickerArr hnd, selectAll_rowsFrom tickerArr _ hlen⟩

theorem insertTickers_then_selectAll_witness :
    (sampleBatch 1 0 102).length = tickersAmount ∧
      (symbolsOf (sampleBatch 1 0 102)).Nodup ∧
      ∃ db, insertTickers (createTable none) (sampleBatch 1 0 102) = .done db ∧
        selectAll db = sampleBatch 1 0 102 :=
  ⟨length_sampleBatch 1 0 102, nodup_sampleBatch 1 0 102,
    insertTickers_then_selectAll (sampleBatch 1 0 102) (length_sampleBatch 1 0 102)
      (nodup_sampleBatch 1 0 102)⟩

/-- C3: for every store of `tickersAmount` records and every batch of
`tickersAmount` records whose symbols are pairwise distinct and all stored (the
stored symbols are then unique as well), `updateTickers` returns and `selectAll`
afterwards yields the stored symbols in their order, every batch record (so
each symbol reads back with exactly the batch's price, volume and last trade),
and nothing else. -/
theorem updateTickers_then_selectAll (db : DB) (tickerArr : List Ticker)
    (hrows : db.rows.length = tickersAmount)
    (hlen : tickerArr.length = tickersAmount) (hnd : (symbolsOf tickerArr).Nodup)
    (hin : ∀ t ∈ tickerArr, t.Symbol ∈ db.symbols) :
    ∃ db', updateTickers db tickerArr = .done db' ∧
      symbolsOf (selectAll db') = db.symbols ∧
      (∀ t ∈ tickerArr, t ∈ selectAll db') ∧
      (∀ u ∈ selectAll db', u ∈ tickerArr) := by
  have hsel : selectAll ⟨db.rows.map (applyRow tickerArr), db.seq⟩ =
      (db.rows.map (applyRow tickerArr)).map scanRow :=
    selectAll_of_length _ (by simpa using hrows)
  refine ⟨_, updateTickers_eq db tickerArr, ?_, ?_, ?_⟩
  · rw [hsel, symbolsOf_map_scanRow, map_symbol_applyRow]
    rfl
  · intro t ht
    obtain ⟨r, hr, hs⟩ := List.mem_map.1 (hin t ht)
    rw [hsel]
    refine List.mem_map.2 ⟨applyRow tickerArr r, List.mem_map_of_mem _ hr, ?_⟩
    rw [applyRow_of_mem tickerArr r t hnd ht hs.symm]
    simp [scanRow, hs]
  · have hsub : symbolsOf tickerArr ⊆ db.symbols := by
      intro s hs
      obtain ⟨t, ht, rfl⟩ := List.mem_map.1 hs
      exact hin t ht
    have hperm : (symbolsOf tickerArr).Perm db.symbols :=
      (List.subperm_of_subset hnd hsub).perm_of_length_le
        (by simp [DB.symbols, symbolsOf, hrows, hlen])
    intro u hu
    rw [hsel] at hu
    obtain ⟨r', hr', rfl⟩ := List.mem_map.1 hu
    obtain ⟨r, hr, rfl⟩ := List.mem_map.1 hr'
    have hmem : r.symbol ∈ symbolsOf tickerArr :=
      hperm.mem_iff.2 (List.mem_map_of_mem _ hr)
    obtain ⟨t, ht, hs⟩ := List.mem_map.1 hmem
    rw [applyRow_of_mem tickerArr r t hnd ht hs]
    have : scanRow ⟨r.id, r.symbol, t.Price, t.Volume, t.LastTrade⟩ = t := by
      simp [scanRow, ← hs]
    rw [this]
    exact ht

theorem updateTickers_then_selectAll_witness :
    sampleStore.rows.length = tickersAmount ∧
      (sampleBatch 2 0 tickersAmount).length = tickersAmount ∧
      (symbolsOf (sampleBatch 2 0 tickersAmount)).Nodup ∧
      ∃ db', updateTickers sampleStore (sampleBatch 2 0 tickersAmount) = .done db' ∧
        symbolsOf (selectAll db') = sampleStore.symbols ∧
        (∀ t ∈ sampleBatch 2 0 tickersAmount, t ∈ selectAll db') ∧
        (∀ u ∈ selectAll db', u ∈ sampleBatch 2 0 tickersAmount) :=
  ⟨length_sampleStore, length_sampleBatch 2 0 tickersAmount,
    nodup_sampleBatch 2 0 tickersAmount,
    updateTickers_then_selectAll sampleStore (sampleBatch 2 0 tickersAmount)
      length_sampleStore (length_sampleBatch 2 0 tickersAmount)
      (nodup_sampleBatch 2 0 tickersAmount)
      (by
        intro t ht
        rw [symbols_sampleStore, ← symbolsOf_sampleBatch 2]
        exact List.mem_map_of_mem _ ht)⟩

/-- C9: for every store and every batch, an entry whose symbol matches no
stored record is not an error and changes nothing: its `UPDATE` succeeds and
leaves the store as it is, `updateTickers` returns, and the resulting store is
the one obtained from the same batch with the unmatched entries removed. -/
theorem updateTickers_unmatched_entries (db : DB) (tickerArr : List Ticker) :
    ∃ db', updateTickers db tickerArr = .done db' ∧
      updateTickers db (tickerArr.filter (fun t => decide (t.Symbol ∈ db.symbols)))
        = .done db' ∧
      ∀ t ∈ tickerArr, t.Symbol ∉ db.symbols →
        execUpdate db t.Price t.Volume t.LastTrade t.Symbol = .ok db := by
  refine ⟨_, updateTickers_eq db tickerArr, ?_, ?_⟩
  · rw [updateTickers_eq]
    congr 2
    apply List.map_congr_left
    intro r hr
    apply applyRow_filter
    intro t _ hp hEq
    have : t.Symbol ∉ db.symbols := by simpa using hp
    exact this (hEq ▸ List.mem_map_of_mem _ hr)
  · intro t _ hnot
    have : db.rows.map (updateRow t.Price t.Volume t.LastTrade t.Symbol) = db.rows := by
      conv_rhs => rw [← List.map_id db.rows]
      apply List.map_congr_left
      intro r hr
      exact updateRow_of_ne _ _ _ _ _ (fun e => hnot (e ▸ List.mem_map_of_mem _ hr))
    simp [execUpdate, this]

/-- C8: the shape of the snapshot is invariant under replace: for every store
and every batch `updateTickers` returns a store with the same number of rows
and the same ids and symbols in the same order; after any sequence of
`updateTickers` calls the same holds, and a store of exactly `tickersAmount`
rows with pairwise distinct symbols is still such a store. -/
theorem updateTickers_keeps_shape (db : DB) (batches : List (List Ticker)) :
    (∀ tickerArr, ∃ db1, updateTickers db tickerArr = .done db1 ∧
        db1.rows.length = db.rows.length ∧ db1.symbols = db.symbols) ∧
    ∃ db', updateTickersSeq db batches = .done db' ∧
      db'.rows.length = db.rows.length ∧
      db'.rows.map Row.id = db.rows.map Row.id ∧
      db'.symbols = db.symbols ∧
      (db.rows.length = tickersAmount ∧ db.symbols.Nodup →
        db'.rows.length = tickersAmount ∧ db'.symbols.Nodup) := by
  constructor
  · intro tickerArr
    exact ⟨_, updateTickers_eq db tickerArr, by simp, map_symbol_applyRow tickerArr db.rows⟩
  · obtain ⟨db', h1, h2, h3⟩ := updateTickersSeq_shape db batches
    have hlen : db'.rows.length = db.rows.length := by
      have := congrArg List.length h2
      simpa using this
    exact ⟨db', h1, hlen, h2, h3, fun h => ⟨hlen ▸ h.1, h3 ▸ h.2⟩⟩

/-- C7 fails in the code: `generalResponse` hands the JSON text to `fmt.Fprintf` as the
format string.  The bootstrap of `percentBatch` leaves `percentStore`, a
snapshot of `tickersAmount` records with unique symbols, one of them `50%d`
with the values 1, 2, 3.  The map built for it holds the key `50%d` with those
values and the JSON text begins with that member, but the body sent begins
with the key `50%!d(MISSING)` and is not the JSON text. -/
theorem generalResponse_percent_symbol :
    prepareDB (.resp (.array percentBatch)) = .done percentStore ∧
    (selectAll percentStore).length = tickersAmount ∧
    (symbolsOf (selectAll percentStore)).Nodup ∧
    SymbolMap.lookup (buildSymbols (selectAll percentStore)) "50%d" = some ⟨1, 2, 3⟩ ∧
    "\x7b\"50%d\":\x7b\"price\":1,\"volume\":2,\"last_trade\":3\x7d,".data
      <+: (jsonMarshal sampleFormat (buildSymbols (selectAll percentStore))).data ∧
    "\x7b\"50%!d(MISSING)\":\x7b\"price\":1,\"volume\":2,\"last_trade\":3\x7d,".data
      <+: (generalResponse sampleFormat percentStore).body.data ∧
    (generalResponse sampleFormat percentStore).body
      ≠ jsonMarshal sampleFormat (buildSymbols (selectAll percentStore)) := by
  obtain ⟨rest1, h1⟩ := jsonMarshal_percentStore
  obtain ⟨rest2, h2⟩ := body_percentStore
  have hpre1 : "\x7b\"50%d\":\x7b\"price\":1,\"volume\":2,\"last_trade\":3\x7d,".data
      <+: (jsonMarshal sampleFormat (buildSymbols (selectAll percentStore))).data :=
    ⟨rest1, h1.symm⟩
  have hpre2 :
      "\x7b\"50%!d(MISSING)\":\x7b\"price\":1,\"volume\":2,\"last_trade\":3\x7d,".data
        <+: (generalResponse sampleFormat percentStore).body.data :=
    ⟨rest2, h2.symm⟩
  refine ⟨prepareDB_percentBatch, ?_, ?_, ?_, hpre1, hpre2, ?_⟩
  · rw [selectAll_percentStore, length_percentBatch]
  · rw [selectAll_percentStore]
    exact nodup_percentBatch
  · rw [selectAll_percentStore, buildSymbols_percentBatch]
    rfl
  · intro hEq
    rw [hEq] at hpre2
    have := List.prefix_of_prefix_length_le hpre1 hpre2 (by decide)
    exact absurd this (by decide)

/-- C5, as the code has it: for every store whose number of rows differs from
`tickersAmount`, and whatever the spelling of numbers, `generalResponse`
answers with status 200 and the empty JSON object as the whole body; it sends
no stored record at all and no server-side error. -/
theorem generalResponse_count_mismatch (formatFloat : Float64 → String) (db : DB)
    (h : db.rows.length ≠ tickersAmount) :
    generalResponse formatFloat db = { status := 200, body := "\x7b\x7d" } := by
  simp only [generalResponse, selectAll_of_length_ne db h]
  rfl

theorem generalResponse_count_mismatch_witness :
    smallStore.rows.length ≠ tickersAmount ∧
      generalResponse sampleFormat smallStore = { status := 200, body := "\x7b\x7d" } :=
  ⟨by decide, generalResponse_count_mismatch sampleFormat smallStore (by decide)⟩

/-- C5 fails as stated: a store of three rows is answered with status 200, not
with a status in the 5xx range, and the body is the empty JSON object. -/
theorem generalResponse_no_server_error :
    smallStore.rows.length = 3 ∧ smallStore.rows.length ≠ tickersAmount ∧
      (generalResponse sampleFormat smallStore).status = 200 ∧
      ¬ (500 ≤ (generalResponse sampleFormat smallStore).status ∧
          (generalResponse sampleFormat smallStore).status < 600) ∧
      (generalResponse sampleFormat smallStore).body = "\x7b\x7d" := by
  decide

/-- C1, as the code has it: a payload that is a JSON array whose record count
differs from `tickersAmount` is not treated as a failed fetch.  `getData`
returns its first `tickersAmount` records, padded with zero values (empty
symbol) when it is shorter, and the cycle runs `updateTickers` on them: the
cycle returns, keeps the stored symbols, leaves every stored record unchanged
whose symbol none of those records names, and so leaves the whole store and the
result of `selectAll` unchanged when they name no stored symbol. -/
theorem updateDBCycle_wrong_count (db : DB) (elems : List Ticker)
    (hcount : elems.length ≠ tickersAmount) :
    getData (.resp (.array elems)) =
      some (elems.take tickersAmount ++
        List.replicate (tickersAmount - elems.length) Ticker.zero) ∧
    ∃ db', updateDBCycle db (.resp (.array elems)) = .done db' ∧
      db'.symbols = db.symbols ∧
      (∀ (i : Nat) (r : Row), db.rows[i]? = some r →
        (∀ t ∈ unmarshal (.array elems), t.Symbol ≠ r.symbol) → db'.rows[i]? = some r) ∧
      ((∀ r ∈ db.rows, ∀ t ∈ unmarshal (.array elems), t.Symbol ≠ r.symbol) →
        db' = db ∧ selectAll db' = selectAll db) := by
  have _ := hcount
  refine ⟨rfl, ⟨db.rows.map (applyRow (unmarshal (.array elems))), db.seq⟩, ?_, ?_, ?_, ?_⟩
  · simp only [updateDBCycle, getData, updateTickers_eq]
  · exact map_symbol_applyRow _ db.rows
  · intro i r hr hfree
    simp only [List.getElem?_map, hr, Option.map_some']
    rw [applyRow_of_not_mem _ r hfree]
  · intro hfree
    have hrows : db.rows.map (applyRow (unmarshal (.array elems))) = db.rows := by
      conv_rhs => rw [← List.map_id db.rows]
      apply List.map_congr_left
      intro r hr
      exact applyRow_of_not_mem _ r (hfree r hr)
    rw [hrows]
    exact ⟨rfl, rfl⟩

theorem updateDBCycle_wrong_count_witness :
    (sampleBatch 2 200 3).length ≠ tickersAmount ∧
    getData (.resp (.array (sampleBatch 2 200 3))) =
      some ((sampleBatch 2 200 3).take tickersAmount ++
        List.replicate (tickersAmount - (sampleBatch 2 200 3).length) Ticker.zero) ∧
    ∃ db', updateDBCycle sampleStore (.resp (.array (sampleBatch 2 200 3))) = .done db' ∧
      db'.symbols = sampleStore.symbols ∧
      (∀ (i : Nat) (r : Row), sampleStore.rows[i]? = some r →
        (∀ t ∈ unmarshal (.array (sampleBatch 2 200 3)), t.Symbol ≠ r.symbol) →
          db'.rows[i]? = some r) ∧
      ((∀ r ∈ sampleStore.rows, ∀ t ∈ unmarshal (.array (sampleBatch 2 200 3)),
          t.Symbol ≠ r.symbol) →
        db' = sampleStore ∧ selectAll db' = selectAll sampleStore) :=
  ⟨by rw [length_sampleBatch]; decide,
    updateDBCycle_wrong_count sampleStore (sampleBatch 2 200 3)
      (by rw [length_sampleBatch]; decide)⟩

set_option maxRecDepth 100000 in
/-- C1 fails as stated: on the sample store a payload of three records, a JSON
array whose count differs from `tickersAmount`, is applied by the cycle, which
returns, and `selectAll` gives other records after the cycle than before it. -/
theorem short_payload_is_applied :
    (sampleBatch 2 0 3).length = 3 ∧ (sampleBatch 2 0 3).length ≠ tickersAmount ∧
    updateDBCycle sampleStore (.resp (.array (sampleBatch 2 0 3)))
      = .done (updateDBCycle sampleStore (.resp (.array (sampleBatch 2 0 3)))).db ∧
    (selectAll sampleStore).length = tickersAmount ∧
    selectAll (updateDBCycle sampleStore (.resp (.array (sampleBatch 2 0 3)))).db
      ≠ selectAll sampleStore := by
  decide

/-- C2, as the code has it: the program opens no transaction, so the states
between two `UPDATE` executions can be read.  For every store and every batch
with pairwise distinct symbols, the state after the first `k` entries of the
batch is a state the whole replace passes through (the remaining entries lead
from it to the final state); in it the stored symbols are unchanged and every
stored record on its own is either the record from before the replace or the
record from after the whole replace. -/
theorem updateTickers_partway_per_record (db : DB) (tickerArr : List Ticker) (k : Nat)
    (hnd : (symbolsOf tickerArr).Nodup) :
    ∃ dbk dbN, updateTickers db (tickerArr.take k) = .done dbk ∧
      updateTickers dbk (tickerArr.drop k) = updateTickers db tickerArr ∧
      updateTickers db tickerArr = .done dbN ∧
      dbk.symbols = db.symbols ∧
      ∀ i : Nat, dbk.rows[i]? = db.rows[i]? ∨ dbk.rows[i]? = dbN.rows[i]? := by
  refine ⟨_, _, updateTickers_eq db _, updateTickers_take_drop db tickerArr k,
    updateTickers_eq db _, map_symbol_applyRow _ db.rows, ?_⟩
  intro i
  simp only [List.getElem?_map]
  cases hr : db.rows[i]? with
  | none => left; rfl
  | some r =>
    simp only [Option.map_some']
    by_cases hex : ∃ t ∈ tickerArr.take k, t.Symbol = r.symbol
    · obtain ⟨t, ht, hs⟩ := hex
      have hndk : (symbolsOf (tickerArr.take k)).Nodup :=
        hnd.sublist ((List.take_sublist k tickerArr).map _)
      right
      rw [applyRow_of_mem _ r t hndk ht hs,
        applyRow_of_mem _ r t hnd (List.mem_of_mem_take ht) hs]
    · left
      rw [applyRow_of_not_mem _ r (fun t ht hs => hex ⟨t, ht, hs⟩)]

theorem updateTickers_partway_per_record_witness :
    (symbolsOf (sampleBatch 2 0 tickersAmount)).Nodup ∧
    ∃ dbk dbN, updateTickers sampleStore ((sampleBatch 2 0 tickersAmount).take 1) = .done dbk ∧
      updateTickers dbk ((sampleBatch 2 0 tickersAmount).drop 1)
        = updateTickers sampleStore (sampleBatch 2 0 tickersAmount) ∧
      updateTickers sampleStore (sampleBatch 2 0 tickersAmount) = .done dbN ∧
      dbk.symbols = sampleStore.symbols ∧
      ∀ i : Nat, dbk.rows[i]? = sampleStore.rows[i]? ∨ dbk.rows[i]? = dbN.rows[i]? :=
  ⟨nodup_sampleBatch 2 0 tickersAmount,
    updateTickers_partway_per_record sampleStore (sampleBatch 2 0 tickersAmount) 1
      (nodup_sampleBatch 2 0 tickersAmount)⟩

set_option maxRecDepth 100000 in
/-- C2 fails as stated: on the sample store, with the batch that sets every
value of every stored symbol to 2, the state after the first `UPDATE`, from
which the remaining 101 statements lead to the final state, is neither the
state before the replace nor the state after it, and `selectAll` returns a
full-length result there that differs from both. -/
theorem updateTickers_partway_is_torn :
    (sampleBatch 2 0 tickersAmount).length = tickersAmount ∧
    updateTickers (updateTickers sampleStore ((sampleBatch 2 0 tickersAmount).take 1)).db
        ((sampleBatch 2 0 tickersAmount).drop 1)
      = updateTickers sampleStore (sampleBatch 2 0 tickersAmount) ∧
    updateTickers sampleStore ((sampleBatch 2 0 tickersAmount).take 1) ≠ .done sampleStore ∧
    updateTickers sampleStore ((sampleBatch 2 0 tickersAmount).take 1)
      ≠ updateTickers sampleStore (sampleBatch 2 0 tickersAmount) ∧
    (selectAll (updateTickers sampleStore ((sampleBatch 2 0 tickersAmount).take 1)).db).length
      = tickersAmount ∧
    selectAll (updateTickers sampleStore ((sampleBatch 2 0 tickersAmount).take 1)).db
      ≠ selectAll sampleStore ∧
    selectAll (updateTickers sampleStore ((sampleBatch 2 0 tickersAmount).take 1)).db
      ≠ selectAll (updateTickers sampleStore (sampleBatch 2 0 tickersAmount)).db := by
  decide

/-- C6, as the code has it: `getData` reports no failure and checks no count.
For every first fetch that is a JSON array of at most `tickersAmount - 2` = 100
records, and for a body that is not a JSON array (no records at all), the
bootstrap ends the process through `log.Fatalln`, because the zero values that
fill the array repeat the empty symbol; when `http.Get` itself fails the
process ends through a panic, with nothing inserted. -/
theorem prepareDB_short_fetch (elems : List Ticker)
    (hshort : elems.length + 2 ≤ tickersAmount) :
    (∃ db, prepareDB (.resp (.array elems)) = .fatal db) ∧
    (∃ db, prepareDB (.resp .notArray) = .fatal db) ∧
    prepareDB .err = .panic (createTable none) := by
  refine ⟨?_, ?_, rfl⟩
  · apply insertTickers_fatal
    right
    have htake : elems.take tickersAmount = elems := List.take_of_length_le (by omega)
    simp only [unmarshal, htake]
    exact not_nodup_padded elems _ (by omega)
  · apply insertTickers_fatal
    right
    have := not_nodup_padded [] tickersAmount (by decide)
    simpa [unmarshal] using this

theorem prepareDB_short_fetch_witness :
    (sampleBatch 1 0 3).length + 2 ≤ tickersAmount ∧
    (∃ db, prepareDB (.resp (.array (sampleBatch 1 0 3))) = .fatal db) ∧
    (∃ db, prepareDB (.resp .notArray) = .fatal db) ∧
    prepareDB .err = .panic (createTable none) :=
  ⟨by rw [length_sampleBatch]; decide,
    prepareDB_short_fetch (sampleBatch 1 0 3) (by rw [length_sampleBatch]; decide)⟩

/-- C6 fails as stated: a first fetch of 101 records with distinct non-empty
symbols, a count that differs from `tickersAmount`, is bootstrapped without any
failure, and the snapshot then served holds the 101 upstream records followed
by one zero-valued record under the empty symbol. -/
theorem prepareDB_accepts_101_records :
    (sampleBatch 1 0 101).length = 101 ∧ (sampleBatch 1 0 101).length ≠ tickersAmount ∧
    ∃ db, prepareDB (.resp (.array (sampleBatch 1 0 101))) = .done db ∧
      selectAll db = sampleBatch 1 0 101 ++ [Ticker.zero] := by
  have hlen : (sampleBatch 1 0 101).length = 101 := length_sampleBatch 1 0 101
  have hun : unmarshal (.array (sampleBatch 1 0 101)) = sampleBatch 1 0 101 ++ [Ticker.zero] := by
    have htake : (sampleBatch 1 0 101).take tickersAmount = sampleBatch 1 0 101 :=
      List.take_of_length_le (by rw [hlen]; decide)
    simp only [unmarshal, htake, hlen]
    rfl
  have hnd : (symbolsOf (sampleBatch 1 0 101 ++ [Ticker.zero])).Nodup := by
    rw [symbolsOf_append, List.nodup_append]
    refine ⟨nodup_sampleBatch 1 0 101, by simp [symbolsOf], ?_⟩
    intro s hs hz
    rw [symbolsOf_sampleBatch] at hs
    obtain ⟨i, _, rfl⟩ := List.mem_map.1 hs
    have : sampleSymbol (0 + i) = "" := by simpa [symbolsOf, Ticker.zero] using hz
    exact sampleSymbol_ne_empty _ this
  refine ⟨hlen, by rw [hlen]; decide,
    ⟨rowsFrom 0 (sampleBatch 1 0 101 ++ [Ticker.zero]),
      (sampleBatch 1 0 101 ++ [Ticker.zero]).length⟩, ?_, ?_⟩
  · simp only [prepareDB, getData, hun]
    exact insertTickers_createTable _ hnd
  · exact selectAll_rowsFrom _ _ (by rw [List.length_append, hlen]; rfl)

/-- C10, as the code has it: the `INSERT` statements are committed one by one
and only the `UNIQUE` constraint stops them.  For every store and every
collection of which some record's symbol is already stored, `insertTickers`
ends the process at the first collision (a symbol already stored, or one that
an earlier record of the collection has just inserted): the rows stored before
are still there, unaltered and in front, the records of the collection before
the first collision have been appended after them, in order, and nothing else
has changed; so the store is left wholly unchanged when the first record of the
collection is the colliding one, as when the same collection is inserted
again. -/
theorem insertTickers_again (db : DB) (tickerArr : List Ticker)
    (hcol : ∃ t ∈ tickerArr, t.Symbol ∈ db.symbols) :
    ∃ db', insertTickers db tickerArr = .fatal db' ∧
      db.rows <+: db'.rows ∧
      (∀ t rest, tickerArr = t :: rest → t.Symbol ∈ db.symbols → db' = db) ∧
      ∃ pre t post, tickerArr = pre ++ t :: post ∧
        (∀ u ∈ pre, u.Symbol ∉ db.symbols) ∧ (symbolsOf pre).Nodup ∧
        (t.Symbol ∈ db.symbols ∨ t.Symbol ∈ symbolsOf pre) ∧
        db' = ⟨db.rows ++ rowsFrom db.seq pre, db.seq + pre.length⟩ := by
  obtain ⟨pre, t, post, hsplit, hfresh, hnd, hwhich, hrun⟩ :=
    insertTickers_first_collision db tickerArr hcol
  refine ⟨_, hrun, ⟨_, rfl⟩, ?_, pre, t, post, hsplit, hfresh, hnd, hwhich, rfl⟩
  intro u rest hEq hmem
  rw [hEq, insertTickers_cons_of_mem db u rest hmem] at hrun
  exact (Outcome.fatal.inj hrun).symm

theorem insertTickers_again_witness :
    (∃ t ∈ sampleBatch 2 tickersAmount 1 ++ sampleBatch 2 0 101,
      t.Symbol ∈ sampleStore.symbols) ∧
    ∃ db', insertTickers sampleStore (sampleBatch 2 tickersAmount 1 ++ sampleBatch 2 0 101)
        = .fatal db' ∧
      sampleStore.rows <+: db'.rows ∧
      (∀ t rest, sampleBatch 2 tickersAmount 1 ++ sampleBatch 2 0 101 = t :: rest →
        t.Symbol ∈ sampleStore.symbols → db' = sampleStore) ∧
      ∃ pre t post, sampleBatch 2 tickersAmount 1 ++ sampleBatch 2 0 101 = pre ++ t :: post ∧
        (∀ u ∈ pre, u.Symbol ∉ sampleStore.symbols) ∧ (symbolsOf pre).Nodup ∧
        (t.Symbol ∈ sampleStore.symbols ∨ t.Symbol ∈ symbolsOf pre) ∧
        db' = ⟨sampleStore.rows ++ rowsFrom sampleStore.seq pre,
          sampleStore.seq + pre.length⟩ :=
  have hcol : ∃ t ∈ sampleBatch 2 tickersAmount 1 ++ sampleBatch 2 0 101,
      t.Symbol ∈ sampleStore.symbols :=
    ⟨sampleTicker 2 0,
      List.mem_append_right _ (List.mem_map.2 ⟨0, by simp, rfl⟩),
      (mem_sampleStore_symbols _).2 ⟨0, by decide, rfl⟩⟩
  ⟨hcol, insertTickers_again sampleStore
    (sampleBatch 2 tickersAmount 1 ++ sampleBatch 2 0 101) hcol⟩

set_option maxRecDepth 100000 in
/-- C10 fails as stated: the sample store is what the first bootstrap of 102
records leaves, and a second `insertTickers` with 102 records under new symbols
does not fail: it returns, and the store then holds 204 rows. -/
theorem second_insertTickers_succeeds :
    insertTickers (createTable none) (sampleBatch 1 0 tickersAmount) = .done sampleStore ∧
    (sampleBatch 2 tickersAmount tickersAmount).length = tickersAmount ∧
    ∃ db, insertTickers sampleStore (sampleBatch 2 tickersAmount tickersAmount) = .done db ∧
      db.rows.length = 204 ∧ db ≠ sampleStore := by
  have hfresh : ∀ t ∈ sampleBatch 2 tickersAmount tickersAmount,
      t.Symbol ∉ sampleStore.symbols := by
    intro t ht hmem
    obtain ⟨i, _, rfl⟩ := List.mem_map.1 ht
    obtain ⟨j, hj, hEq⟩ := (mem_sampleStore_symbols _).1 hmem
    have := sampleSymbol_injective hEq
    omega
  have hlen := length_sampleBatch 2 tickersAmount tickersAmount
  have hrows : (rowsFrom sampleStore.seq (sampleBatch 2 tickersAmount tickersAmount)).length
      = tickersAmount := by
    rw [← List.length_map _ Row.symbol, symbol_rowsFrom, symbolsOf, List.length_map, hlen]
  refine ⟨?_, hlen, _, insertTickers_of_nodup sampleStore _ hfresh
    (nodup_sampleBatch 2 tickersAmount tickersAmount), ?_, ?_⟩
  · rw [insertTickers_createTable _ (nodup_sampleBatch 1 0 tickersAmount)]
    decide
  · show (sampleStore.rows ++ rowsFrom sampleStore.seq
        (sampleBatch 2 tickersAmount tickersAmount)).length = 204
    rw [List.length_append, hrows, length_sampleStore]
    rfl
  · intro hEq
    have hl := congrArg (fun d => d.rows.length) hEq
    have hl2 : (sampleStore.rows ++ rowsFrom sampleStore.seq
        (sampleBatch 2 tickersAmount tickersAmount)).length = sampleStore.rows.length := hl
    rw [List.length_append, hrows, length_sampleStore] at hl2
    exact absurd hl2 (by decide)

end TickersAPI
